import Mathlib

/-!
Shallow embedding of `src/backend/src/services/matchingService.js`
(the Similarity Scorer and the Insertion Planner of the smart-broll-inserter
repository), together with proofs settling the frozen claims about it.

Modelling conventions:
* JavaScript numbers are modelled as exact rationals (`ℚ`).  The only
  irrational value the source produces is the cosine-similarity quotient
  `dot / (Math.sqrt(normA) * Math.sqrt(normB))`; that value is represented
  exactly by the pair `Sim ⟨dot, normA * normB⟩`, read as the real number
  `dot / Real.sqrt (normA * normB)` (note `√x * √y = √(x*y)` for `x, y ≥ 0`).
  The comparisons the source performs on similarity values (`>` against the
  running best score, `>=` against `minConfidence`) are implemented on this
  representation by exact sign analysis and cross-multiplied squaring, and
  are proved below (`Sim.lt_iff_toReal`, `Sim.le_iff_toReal`) to agree with
  the real-number order, so every control-flow decision of the source is
  reproduced exactly.
* The `throw new Error("Vectors must have the same length")` in
  `cosineSimilarity` is modelled with `Except`: the error value is
  `MatchErr.dimensionMismatch`, and exception propagation is the `Except`
  bind, which is exactly "propagates up uncaught".
* A transcript segment's possibly-missing `embedding` field is an
  `Option (List ℚ)`; the planner's eligibility filter tests `isSome`
  (the JS truthiness test `segment.embedding`).
* `Array.prototype.sort` with comparator `(a, b) => a.start_sec - b.start_sec`
  is a stable ascending sort by `start_sec`; it is modelled by
  `List.insertionSort (a.start_sec ≤ b.start_sec)`, which is the stable
  ascending sort (equal keys keep their original relative order).
* The `usedBrollIds` `Set` is modelled as a `List String` queried with
  `contains`; only membership is ever used.
-/

deriving instance DecidableEq for Except

set_option maxRecDepth 100000

namespace BRoll

/-- The single error the core can raise: `cosineSimilarity`'s
`throw new Error("Vectors must have the same length")` (the spec's
`DimensionMismatch`). -/
inductive MatchErr where
  | dimensionMismatch
deriving DecidableEq

/-- Exact representation of the float `num / (√den2)` produced by the
source's cosine similarity: `dot / (Math.sqrt(normA) * Math.sqrt(normB))`
is represented as `⟨dot, normA * normB⟩`. Every `Sim` the program builds
has `den2 > 0` (`den2 = 1` for plain rationals such as the initial best
score `-1` and `minConfidence`; `den2 = normA * normB ≠ 0` past the
zero-denominator guard). -/
structure Sim where
  num : ℚ
  den2 : ℚ
deriving DecidableEq

/-- A plain rational `q` as a similarity value (`q / √1`). -/
def Sim.ofRat (q : ℚ) : Sim := ⟨q, 1⟩

/-- Exact decision of `a < b` where `a = a.num / √a.den2`,
`b = b.num / √b.den2` (valid for `den2 > 0`): sign analysis, then
comparison of squares cross-multiplied by the (positive) radicands. -/
def Sim.lt (a b : Sim) : Bool :=
  if 0 ≤ a.num then
    decide (0 ≤ b.num) && decide (a.num ^ 2 * b.den2 < b.num ^ 2 * a.den2)
  else
    decide (0 ≤ b.num) || decide (b.num ^ 2 * a.den2 < a.num ^ 2 * b.den2)

/-- Exact decision of `a ≤ b` on the same representation. -/
def Sim.le (a b : Sim) : Bool :=
  if 0 ≤ a.num then
    decide (0 ≤ b.num) && decide (a.num ^ 2 * b.den2 ≤ b.num ^ 2 * a.den2)
  else
    decide (0 ≤ b.num) || decide (b.num ^ 2 * a.den2 ≤ a.num ^ 2 * b.den2)

/-- `dotProduct` accumulator of the loop in `cosineSimilarity`. -/
def dotProduct (a b : List ℚ) : ℚ := (List.zipWith (· * ·) a b).sum

/-- The `normA`/`normB` accumulators of the loop in `cosineSimilarity`
(sum of squares; the source takes `Math.sqrt` of this only inside the
denominator, which the `Sim` representation carries symbolically). -/
def sumSq (v : List ℚ) : ℚ := (v.map fun x => x * x).sum

/-- `cosineSimilarity(vecA, vecB)` from matchingService.js.
Length mismatch throws; the guard `denominator === 0` — where
`denominator = √normA * √normB` — holds iff `normA * normB = 0`
(both radicands are sums of squares, hence nonnegative), and returns `0`;
otherwise the value `dot / (√normA * √normB) = dot / √(normA * normB)`
is returned, represented exactly. -/
def cosineSimilarity (vecA vecB : List ℚ) : Except MatchErr Sim :=
  if vecA.length = vecB.length then
    if sumSq vecA * sumSq vecB = 0 then .ok (Sim.ofRat 0)
    else .ok ⟨dotProduct vecA vecB, sumSq vecA * sumSq vecB⟩
  else .error .dimensionMismatch

/-- A B-roll candidate `{id, metadata, embedding}`. -/
structure BRollCand where
  id : String
  metadata : String
  embedding : List ℚ
deriving DecidableEq

/-- The match record `{id, confidence, reason}` built by `findBestMatch`. -/
structure BMatch where
  id : String
  confidence : Sim
  reason : String
deriving DecidableEq

/-- The `reason` string: `Semantic match: ${broll.metadata.substring(0, 100)}...`. -/
def matchReason (b : BRollCand) : String :=
  "Semantic match: " ++ (b.metadata.take 100) ++ "..."

/-- The loop of `findBestMatch`: iterate over all candidates carrying
`bestMatch` and `bestScore`; a thrown `DimensionMismatch` aborts the loop
(and the whole call) at once. -/
def findBestMatchAux (segEmb : List ℚ) :
    List BRollCand → Option BMatch → Sim → Except MatchErr (Option BMatch)
  | [], best, _ => .ok best
  | b :: rest, best, bestScore =>
    match cosineSimilarity segEmb b.embedding with
    | .error e => .error e
    | .ok similarity =>
      if Sim.lt bestScore similarity then
        findBestMatchAux segEmb rest
          (some ⟨b.id, similarity, matchReason b⟩) similarity
      else
        findBestMatchAux segEmb rest best bestScore

/-- `findBestMatch(segmentEmbedding, brollEmbeddings)` from
matchingService.js: `bestMatch = null`, `bestScore = -1`, keep the
strictly greatest similarity. -/
def findBestMatch (segmentEmbedding : List ℚ) (brollEmbeddings : List BRollCand) :
    Except MatchErr (Option BMatch) :=
  findBestMatchAux segmentEmbedding brollEmbeddings none (Sim.ofRat (-1))

/-- A transcript segment `{start_sec, end_sec, text, embedding}`; the
embedding may be absent (JS `undefined`), which the eligibility filter
rejects. -/
structure Segment where
  start_sec : ℚ
  end_sec : ℚ
  text : String
  embedding : Option (List ℚ)
deriving DecidableEq

/-- The destructured `options` of `planInsertions` with its defaults. -/
structure Config where
  minInsertionGap : ℚ := 8
  minInsertionDuration : ℚ := 2
  maxInsertionDuration : ℚ := 5
  minConfidence : ℚ := 3 / 10
  maxInsertions : ℕ := 6
  avoidFirstSeconds : ℚ := 2
  avoidLastSeconds : ℚ := 3
deriving DecidableEq

/-- An emitted insertion plan entry. -/
structure Insertion where
  start_sec : ℚ
  duration_sec : ℚ
  broll_id : String
  confidence : Sim
  reason : String
deriving DecidableEq

/-- The eligibility filter of `planInsertions`: `start_sec >= avoidFirstSeconds`,
`end_sec <= arollDuration - avoidLastSeconds`, duration `>= 1.5`, and the
segment carries an embedding (JS truthiness of `segment.embedding`). -/
def suitableSeg (cfg : Config) (arollDuration : ℚ) (s : Segment) : Bool :=
  decide (cfg.avoidFirstSeconds ≤ s.start_sec) &&
  decide (s.end_sec ≤ arollDuration - cfg.avoidLastSeconds) &&
  decide ((3 : ℚ) / 2 ≤ s.end_sec - s.start_sec) &&
  s.embedding.isSome

/-- The candidate pool chosen per iteration (source lines 103–109):
`availableBrolls` are the candidates whose id is not yet used; if the plan
is still short of `maxInsertions` and none are available, fall back to the
full list; otherwise use the available ones when there are any, else the
full list. -/
def brollsToSearch (cfg : Config) (brollEmbeddings : List BRollCand)
    (used : List String) (insCount : ℕ) : List BRollCand :=
  let availableBrolls := brollEmbeddings.filter fun b => !used.contains b.id
  if insCount < cfg.maxInsertions && availableBrolls.length = 0 then
    brollEmbeddings
  else if availableBrolls.length > 0 then availableBrolls
  else brollEmbeddings

/-- The `for (const segment of suitableSegments)` loop of `planInsertions`,
carrying `insertions`, `usedBrollIds` and `lastInsertionEnd`.
`break` on reaching `maxInsertions`; `continue` when the segment starts
before `lastInsertionEnd + minInsertionGap`; otherwise score the segment
against the chosen pool and, if the best match reaches `minConfidence`,
emit an insertion and advance the state.  (Segments reaching this loop
passed the filter, so `segment.embedding` is present; the `getD []`
default is never read.) -/
def planLoop (cfg : Config) (brollEmbeddings : List BRollCand) :
    List Segment → List Insertion → List String → ℚ →
    Except MatchErr (List Insertion)
  | [], insertions, _, _ => .ok insertions
  | seg :: rest, insertions, used, lastInsertionEnd =>
    if cfg.maxInsertions ≤ insertions.length then .ok insertions
    else if seg.start_sec < lastInsertionEnd + cfg.minInsertionGap then
      planLoop cfg brollEmbeddings rest insertions used lastInsertionEnd
    else
      match findBestMatch (seg.embedding.getD [])
          (brollsToSearch cfg brollEmbeddings used insertions.length) with
      | .error e => .error e
      | .ok none => planLoop cfg brollEmbeddings rest insertions used lastInsertionEnd
      | .ok (some mt) =>
        if Sim.le (Sim.ofRat cfg.minConfidence) mt.confidence then
          let insertionStart := seg.start_sec + 1 / 2
          let insertionDuration :=
            min (max cfg.minInsertionDuration (seg.end_sec - insertionStart - 1 / 2))
              cfg.maxInsertionDuration
          planLoop cfg brollEmbeddings rest
            (insertions ++ [⟨insertionStart, insertionDuration, mt.id,
              mt.confidence, mt.reason⟩])
            (mt.id :: used) (insertionStart + insertionDuration)
        else planLoop cfg brollEmbeddings rest insertions used lastInsertionEnd

/-- `planInsertions(transcriptSegments, brollEmbeddings, arollDuration, options)`
from matchingService.js: filter eligible segments, stable-sort them by
ascending `start_sec`, then run the greedy loop with `lastInsertionEnd`
initialised to `avoidFirstSeconds`. -/
def planInsertions (transcriptSegments : List Segment)
    (brollEmbeddings : List BRollCand) (arollDuration : ℚ)
    (options : Config) : Except MatchErr (List Insertion) :=
  let suitableSegments :=
    (transcriptSegments.filter (suitableSeg options arollDuration)).insertionSort
      fun a b => a.start_sec ≤ b.start_sec
  planLoop options brollEmbeddings suitableSegments [] [] options.avoidFirstSeconds

/-! Derived predicates used to state the claims. -/

/-- `b`'s similarity to `emb` is computed without error and strictly exceeds
the score `bs` (the comparison `similarity > bestScore` of `findBestMatch`). -/
def simBeats (emb : List ℚ) (bs : Sim) (b : BRollCand) : Bool :=
  match cosineSimilarity emb b.embedding with
  | .ok s => Sim.lt bs s
  | .error _ => false

/-- Segment `s` and candidate `b` form a qualifying match: the segment has an
embedding, scoring succeeds, and the similarity reaches `minConfidence`. -/
def qualifies (cfg : Config) (s : Segment) (b : BRollCand) : Bool :=
  match s.embedding with
  | none => false
  | some e =>
    match cosineSimilarity e b.embedding with
    | .error _ => false
    | .ok sim => Sim.le (Sim.ofRat cfg.minConfidence) sim

/-- Well-formed input in the sense of the spec: every embedding present in
the input (candidate embeddings, and segment embeddings where present)
has the one dimensionality `D`. -/
def wellFormed (D : ℕ) (segs : List Segment) (brolls : List BRollCand) : Bool :=
  brolls.all (fun b => b.embedding.length == D) &&
  segs.all fun s =>
    match s.embedding with
    | some e => e.length == D
    | none => true

/-- What an emitted insertion's timing satisfies: the duration is the
lower-bound-first clamp of `end_sec − insertionStart − 0.5` for its producing
segment, hence it lies between `min(minInsertionDuration, maxInsertionDuration)`
and `maxInsertionDuration`, and between the two configured bounds whenever
`minInsertionDuration ≤ maxInsertionDuration`. -/
def durationSpec (cfg : Config) (segs : List Segment) (i : Insertion) : Prop :=
  min cfg.minInsertionDuration cfg.maxInsertionDuration ≤ i.duration_sec ∧
  i.duration_sec ≤ cfg.maxInsertionDuration ∧
  (cfg.minInsertionDuration ≤ cfg.maxInsertionDuration →
    cfg.minInsertionDuration ≤ i.duration_sec) ∧
  ∃ s ∈ segs, i.start_sec = s.start_sec + 1 / 2 ∧
    i.duration_sec =
      min (max cfg.minInsertionDuration (s.end_sec - (s.start_sec + 1 / 2) - 1 / 2))
        cfg.maxInsertionDuration

/-- An insertion's provenance: its `broll_id` is the id of an input candidate
and its `confidence` is the (successfully computed) cosine similarity of some
input segment's embedding with that candidate's embedding. -/
def insertionSource (segs : List Segment) (brolls : List BRollCand)
    (i : Insertion) : Prop :=
  ∃ b ∈ brolls, i.broll_id = b.id ∧
    ∃ s ∈ segs, ∃ e, s.embedding = some e ∧
      cosineSimilarity e b.embedding = .ok i.confidence

/-! Supporting lemmas about the Scorer. -/

lemma cosineSimilarity_error_of_ne {a b : List ℚ} (h : a.length ≠ b.length) :
    cosineSimilarity a b = .error .dimensionMismatch := by
  simp [cosineSimilarity, h]

lemma cosineSimilarity_ok_of_eq {a b : List ℚ} (h : a.length = b.length) :
    ∃ s, cosineSimilarity a b = .ok s := by
  unfold cosineSimilarity
  rw [if_pos h]
  by_cases hz : sumSq a * sumSq b = 0
  · exact ⟨_, by rw [if_pos hz]⟩
  · exact ⟨_, by rw [if_neg hz]⟩

/-! Supporting lemmas about `findBestMatchAux`. -/

lemma findBestMatchAux_ok_some {emb : List ℚ} {l : List BRollCand} :
    ∀ {acc : Option BMatch} {bs : Sim} {m : BMatch},
      findBestMatchAux emb l acc bs = .ok (some m) →
      acc = some m ∨ ∃ b ∈ l, m.id = b.id ∧ m.reason = matchReason b ∧
        cosineSimilarity emb b.embedding = .ok m.confidence := by
  induction l with
  | nil =>
    intro acc bs m h
    simp only [findBestMatchAux, Except.ok.injEq] at h
    exact Or.inl h
  | cons b rest ih =>
    intro acc bs m h
    rw [findBestMatchAux] at h
    cases hc : cosineSimilarity emb b.embedding with
    | error e => rw [hc] at h; dsimp only at h; cases h
    | ok sim =>
      rw [hc] at h; dsimp only at h
      by_cases hlt : Sim.lt bs sim = true
      · rw [if_pos hlt] at h
        rcases ih h with h1 | ⟨b', hb', h2, h3, h4⟩
        · right
          refine ⟨b, List.mem_cons_self b rest, ?_⟩
          obtain ⟨rfl⟩ : m = ⟨b.id, sim, matchReason b⟩ := by
            injection h1 with h1; exact h1.symm
          exact ⟨rfl, rfl, hc⟩
        · exact Or.inr ⟨b', List.mem_cons_of_mem b hb', h2, h3, h4⟩
      · rw [if_neg hlt] at h
        rcases ih h with h1 | ⟨b', hb', h2⟩
        · exact Or.inl h1
        · exact Or.inr ⟨b', List.mem_cons_of_mem b hb', h2⟩

lemma findBestMatchAux_ok_of_lengths {emb : List ℚ} {l : List BRollCand}
    (hl : ∀ b ∈ l, b.embedding.length = emb.length) :
    ∀ (acc : Option BMatch) (bs : Sim),
      ∃ r, findBestMatchAux emb l acc bs = .ok r := by
  induction l with
  | nil => intro acc bs; exact ⟨acc, rfl⟩
  | cons b rest ih =>
    intro acc bs
    obtain ⟨sim, hsim⟩ :=
      cosineSimilarity_ok_of_eq (a := emb) (b := b.embedding)
        ((hl b (List.mem_cons_self b rest)).symm)
    have hrest : ∀ b' ∈ rest, b'.embedding.length = emb.length :=
      fun b' hb' => hl b' (List.mem_cons_of_mem b hb')
    rw [findBestMatchAux, hsim]
    dsimp only
    by_cases hlt : Sim.lt bs sim = true
    · rw [if_pos hlt]; exact ih hrest _ _
    · rw [if_neg hlt]; exact ih hrest acc bs

lemma findBestMatchAux_some_stays {emb : List ℚ} {l : List BRollCand}
    (hl : ∀ b ∈ l, b.embedding.length = emb.length) :
    ∀ (m0 : BMatch) (bs : Sim),
      ∃ m, findBestMatchAux emb l (some m0) bs = .ok (some m) := by
  induction l with
  | nil => intro m0 bs; exact ⟨m0, rfl⟩
  | cons b rest ih =>
    intro m0 bs
    obtain ⟨sim, hsim⟩ :=
      cosineSimilarity_ok_of_eq (a := emb) (b := b.embedding)
        ((hl b (List.mem_cons_self b rest)).symm)
    have hrest : ∀ b' ∈ rest, b'.embedding.length = emb.length :=
      fun b' hb' => hl b' (List.mem_cons_of_mem b hb')
    rw [findBestMatchAux, hsim]
    dsimp only
    by_cases hlt : Sim.lt bs sim = true
    · rw [if_pos hlt]; exact ih hrest _ _
    · rw [if_neg hlt]; exact ih hrest m0 bs

lemma findBestMatchAux_some_of_beats {emb : List ℚ} {l : List BRollCand}
    (hl : ∀ b ∈ l, b.embedding.length = emb.length) :
    ∀ (acc : Option BMatch) (bs : Sim),
      l.any (simBeats emb bs) = true →
      ∃ m, findBestMatchAux emb l acc bs = .ok (some m) := by
  induction l with
  | nil => intro acc bs h; cases h
  | cons b rest ih =>
    intro acc bs hany
    obtain ⟨sim, hsim⟩ :=
      cosineSimilarity_ok_of_eq (a := emb) (b := b.embedding)
        ((hl b (List.mem_cons_self b rest)).symm)
    have hrest : ∀ b' ∈ rest, b'.embedding.length = emb.length :=
      fun b' hb' => hl b' (List.mem_cons_of_mem b hb')
    rw [findBestMatchAux, hsim]
    dsimp only
    by_cases hlt : Sim.lt bs sim = true
    · rw [if_pos hlt]; exact findBestMatchAux_some_stays hrest _ _
    · rw [if_neg hlt]
      refine ih hrest acc bs ?_
      rcases List.any_eq_true.mp hany with ⟨b', hb', hbeat⟩
      rcases List.mem_cons.mp hb' with rfl | hb'
      · exfalso
        rw [simBeats, hsim] at hbeat
        exact hlt hbeat
      · exact List.any_eq_true.mpr ⟨b', hb', hbeat⟩

lemma findBestMatchAux_not_none {emb : List ℚ} {l : List BRollCand} :
    ∀ {m0 : BMatch} {bs : Sim},
      findBestMatchAux emb l (some m0) bs ≠ .ok none := by
  induction l with
  | nil => intro m0 bs h; cases h
  | cons b rest ih =>
    intro m0 bs h
    rw [findBestMatchAux] at h
    cases hc : cosineSimilarity emb b.embedding with
    | error e => rw [hc] at h; dsimp only at h; cases h
    | ok sim =>
      rw [hc] at h; dsimp only at h
      by_cases hlt : Sim.lt bs sim = true
      · rw [if_pos hlt] at h; exact ih h
      · rw [if_neg hlt] at h; exact ih h

lemma findBestMatchAux_none {emb : List ℚ} {l : List BRollCand} :
    ∀ {acc : Option BMatch} {bs : Sim},
      findBestMatchAux emb l acc bs = .ok none →
      acc = none ∧ l.any (simBeats emb bs) = false := by
  induction l with
  | nil =>
    intro acc bs h
    simp only [findBestMatchAux, Except.ok.injEq] at h
    exact ⟨h, rfl⟩
  | cons b rest ih =>
    intro acc bs h
    rw [findBestMatchAux] at h
    cases hc : cosineSimilarity emb b.embedding with
    | error e => rw [hc] at h; dsimp only at h; cases h
    | ok sim =>
      rw [hc] at h; dsimp only at h
      by_cases hlt : Sim.lt bs sim = true
      · rw [if_pos hlt] at h
        exact absurd h findBestMatchAux_not_none
      · rw [if_neg hlt] at h
        obtain ⟨hacc, hrest⟩ := ih h
        refine ⟨hacc, ?_⟩
        simp only [List.any_cons, Bool.or_eq_false_iff]
        exact ⟨by rw [simBeats, hc]; exact Bool.eq_false_iff.mpr hlt, hrest⟩

lemma findBestMatchAux_error_of_mismatch {emb : List ℚ} {l : List BRollCand}
    (hx : ∃ b ∈ l, emb.length ≠ b.embedding.length) :
    ∀ (acc : Option BMatch) (bs : Sim),
      findBestMatchAux emb l acc bs = .error .dimensionMismatch := by
  induction l with
  | nil => rcases hx with ⟨b, hb, _⟩; cases hb
  | cons b rest ih =>
    intro acc bs
    by_cases hb : emb.length = b.embedding.length
    · obtain ⟨sim, hsim⟩ := cosineSimilarity_ok_of_eq hb
      rw [findBestMatchAux, hsim]
      dsimp only
      have hx' : ∃ b' ∈ rest, emb.length ≠ b'.embedding.length := by
        rcases hx with ⟨b', hb', hne⟩
        rcases List.mem_cons.mp hb' with rfl | hmem
        · exact absurd hb hne
        · exact ⟨b', hmem, hne⟩
      by_cases hlt : Sim.lt bs sim = true
      · rw [if_pos hlt]; exact ih hx' _ _
      · rw [if_neg hlt]; exact ih hx' acc bs
    · rw [findBestMatchAux, cosineSimilarity_error_of_ne hb]

/-! Supporting lemmas about the candidate pool. -/

lemma brollsToSearch_subset (cfg : Config) (brolls : List BRollCand)
    (used : List String) (n : ℕ) :
    ∀ x ∈ brollsToSearch cfg brolls used n, x ∈ brolls := by
  intro x hx
  rw [brollsToSearch] at hx
  split at hx
  · exact hx
  · split at hx
    · exact List.mem_of_mem_filter hx
    · exact hx

lemma brollsToSearch_unused (cfg : Config) (brolls : List BRollCand)
    (used : List String) (n : ℕ)
    (hx : ∃ b ∈ brolls, used.contains b.id = false) :
    ∀ x ∈ brollsToSearch cfg brolls used n, used.contains x.id = false := by
  intro x hmem
  have hne : (brolls.filter fun b => !used.contains b.id) ≠ [] := by
    rcases hx with ⟨b, hb, hbc⟩
    intro hnil
    have hbmem : b ∈ brolls.filter fun b => !used.contains b.id :=
      List.mem_filter.mpr ⟨hb, by rw [hbc]; rfl⟩
    rw [hnil] at hbmem
    cases hbmem
  have hlen : ¬((brolls.filter fun b => !used.contains b.id).length = 0) := by
    simpa [List.length_eq_zero] using hne
  rw [brollsToSearch] at hmem
  split at hmem
  · rename_i hcond
    rw [Bool.and_eq_true, decide_eq_true_eq, decide_eq_true_eq] at hcond
    exact absurd hcond.2 hlen
  · split at hmem
    · have := (List.mem_filter.mp hmem).2
      simpa using this
    · rename_i hpos
      exact absurd (Nat.pos_of_ne_zero hlen) hpos

lemma brollsToSearch_nil (cfg : Config) (used : List String) (n : ℕ) :
    brollsToSearch cfg [] used n = [] := by
  rw [brollsToSearch]
  split
  · rfl
  · split <;> simp_all [List.filter_nil]

/-! Supporting lemmas about the planner loop. -/

lemma planLoop_nil_brolls (cfg : Config) :
    ∀ (segsl : List Segment) (ins : List Insertion) (used : List String)
      (lastEnd : ℚ), planLoop cfg [] segsl ins used lastEnd = .ok ins := by
  intro segsl
  induction segsl with
  | nil => intro ins used lastEnd; rfl
  | cons seg rest ih =>
    intro ins used lastEnd
    rw [planLoop]
    by_cases h1 : cfg.maxInsertions ≤ ins.length
    · rw [if_pos h1]
    · rw [if_neg h1]
      by_cases h2 : seg.start_sec < lastEnd + cfg.minInsertionGap
      · rw [if_pos h2]; exact ih ins used lastEnd
      · rw [if_neg h2]
        rw [brollsToSearch_nil]
        have hnone : findBestMatch (seg.embedding.getD []) ([] : List BRollCand) =
            .ok none := rfl
        rw [hnone]
        dsimp only
        exact ih ins used lastEnd

lemma planLoop_ok_of_wf {D : ℕ} (cfg : Config) {brolls : List BRollCand}
    (hb : ∀ b ∈ brolls, b.embedding.length = D) :
    ∀ (segsl : List Segment),
      (∀ s ∈ segsl, ∃ e, s.embedding = some e ∧ e.length = D) →
      ∀ (ins : List Insertion) (used : List String) (lastEnd : ℚ),
        ∃ l, planLoop cfg brolls segsl ins used lastEnd = .ok l := by
  intro segsl
  induction segsl with
  | nil => intro _ ins used lastEnd; exact ⟨ins, rfl⟩
  | cons seg rest ih =>
    intro hs ins used lastEnd
    have hrest := fun s hm => hs s (List.mem_cons_of_mem _ hm)
    obtain ⟨e, he, hlen⟩ := hs seg (List.mem_cons_self _ _)
    rw [planLoop]
    by_cases h1 : cfg.maxInsertions ≤ ins.length
    · rw [if_pos h1]; exact ⟨ins, rfl⟩
    · rw [if_neg h1]
      by_cases h2 : seg.start_sec < lastEnd + cfg.minInsertionGap
      · rw [if_pos h2]; exact ih hrest ins used lastEnd
      · rw [if_neg h2]
        have hpool : ∀ b ∈ brollsToSearch cfg brolls used ins.length,
            b.embedding.length = (seg.embedding.getD []).length := by
          intro b hbm
          rw [he]
          show b.embedding.length = e.length
          rw [hb b (brollsToSearch_subset cfg brolls used ins.length b hbm), hlen]
        obtain ⟨r, hr⟩ :=
          findBestMatchAux_ok_of_lengths hpool none (Sim.ofRat (-1))
        have hr' : findBestMatch (seg.embedding.getD [])
            (brollsToSearch cfg brolls used ins.length) = .ok r := hr
        rw [hr']
        cases r with
        | none => dsimp only; exact ih hrest ins used lastEnd
        | some mt =>
          dsimp only
          by_cases h3 : Sim.le (Sim.ofRat cfg.minConfidence) mt.confidence = true
          · rw [if_pos h3]; exact ih hrest _ _ _
          · rw [if_neg h3]; exact ih hrest ins used lastEnd

lemma planLoop_sorted (cfg : Config) (brolls : List BRollCand)
    (hgap : 0 < 1 / 2 + cfg.minInsertionGap +
      min cfg.minInsertionDuration cfg.maxInsertionDuration) :
    ∀ (segsl : List Segment) (ins : List Insertion) (used : List String)
      (lastEnd : ℚ) (l : List Insertion),
      ins.Pairwise (fun a b => a.start_sec < b.start_sec) →
      (∀ i ∈ ins, i.start_sec +
        min cfg.minInsertionDuration cfg.maxInsertionDuration ≤ lastEnd) →
      planLoop cfg brolls segsl ins used lastEnd = .ok l →
      l.Pairwise (fun a b => a.start_sec < b.start_sec) := by
  intro segsl
  induction segsl with
  | nil =>
    intro ins used lastEnd l hp _ h
    simp only [planLoop, Except.ok.injEq] at h
    rw [← h]; exact hp
  | cons seg rest ih =>
    intro ins used lastEnd l hp hinv h
    rw [planLoop] at h
    by_cases h1 : cfg.maxInsertions ≤ ins.length
    · rw [if_pos h1] at h
      injection h with h
      rw [← h]; exact hp
    · rw [if_neg h1] at h
      by_cases h2 : seg.start_sec < lastEnd + cfg.minInsertionGap
      · rw [if_pos h2] at h; exact ih ins used lastEnd l hp hinv h
      · rw [if_neg h2] at h
        cases hm : findBestMatch (seg.embedding.getD [])
            (brollsToSearch cfg brolls used ins.length) with
        | error e => rw [hm] at h; dsimp only at h; cases h
        | ok r =>
          rw [hm] at h
          cases r with
          | none => dsimp only at h; exact ih ins used lastEnd l hp hinv h
          | some mt =>
            dsimp only at h
            by_cases h3 : Sim.le (Sim.ofRat cfg.minConfidence) mt.confidence = true
            · rw [if_pos h3] at h
              have h5 : lastEnd + cfg.minInsertionGap ≤ seg.start_sec := not_lt.mp h2
              have hd : min cfg.minInsertionDuration cfg.maxInsertionDuration ≤
                  min (max cfg.minInsertionDuration
                    (seg.end_sec - (seg.start_sec + 1 / 2) - 1 / 2))
                    cfg.maxInsertionDuration :=
                le_min ((min_le_left _ _).trans (le_max_left _ _)) (min_le_right _ _)
              refine ih _ _ _ l ?_ ?_ h
              · refine List.pairwise_append.mpr ⟨hp, List.pairwise_singleton _ _, ?_⟩
                intro a ha b hb
                rw [List.mem_singleton] at hb
                subst hb
                have h4 := hinv a ha
                show a.start_sec < seg.start_sec + 1 / 2
                linarith
              · intro i hi
                rcases List.mem_append.mp hi with hi | hi
                · have h4 := hinv i hi
                  show i.start_sec +
                    min cfg.minInsertionDuration cfg.maxInsertionDuration ≤ _
                  linarith
                · rw [List.mem_singleton] at hi
                  subst hi
                  show seg.start_sec + 1 / 2 +
                    min cfg.minInsertionDuration cfg.maxInsertionDuration ≤ _
                  linarith
            · rw [if_neg h3] at h; exact ih ins used lastEnd l hp hinv h

lemma planLoop_durationSpec (cfg : Config) (brolls : List BRollCand)
    (segs0 : List Segment) :
    ∀ (segsl : List Segment), (∀ s ∈ segsl, s ∈ segs0) →
    ∀ (ins : List Insertion) (used : List String) (lastEnd : ℚ)
      (l : List Insertion),
      (∀ i ∈ ins, durationSpec cfg segs0 i) →
      planLoop cfg brolls segsl ins used lastEnd = .ok l →
      ∀ i ∈ l, durationSpec cfg segs0 i := by
  intro segsl
  induction segsl with
  | nil =>
    intro _ ins used lastEnd l hins h
    simp only [planLoop, Except.ok.injEq] at h
    rw [← h]; exact hins
  | cons seg rest ih =>
    intro hs ins used lastEnd l hins h
    have hrest := fun s hm => hs s (List.mem_cons_of_mem _ hm)
    rw [planLoop] at h
    by_cases h1 : cfg.maxInsertions ≤ ins.length
    · rw [if_pos h1] at h
      injection h with h
      rw [← h]; exact hins
    · rw [if_neg h1] at h
      by_cases h2 : seg.start_sec < lastEnd + cfg.minInsertionGap
      · rw [if_pos h2] at h; exact ih hrest ins used lastEnd l hins h
      · rw [if_neg h2] at h
        cases hm : findBestMatch (seg.embedding.getD [])
            (brollsToSearch cfg brolls used ins.length) with
        | error e => rw [hm] at h; dsimp only at h; cases h
        | ok r =>
          rw [hm] at h
          cases r with
          | none => dsimp only at h; exact ih hrest ins used lastEnd l hins h
          | some mt =>
            dsimp only at h
            by_cases h3 : Sim.le (Sim.ofRat cfg.minConfidence) mt.confidence = true
            · rw [if_pos h3] at h
              refine ih hrest _ _ _ l ?_ h
              intro i hi
              rcases List.mem_append.mp hi with hi | hi
              · exact hins i hi
              · rw [List.mem_singleton] at hi
                subst hi
                refine ⟨le_min ((min_le_left _ _).trans (le_max_left _ _))
                    (min_le_right _ _), min_le_right _ _, ?_, ?_⟩
                · intro hle
                  exact le_min (le_max_left _ _) hle
                · exact ⟨seg, hs seg (List.mem_cons_self _ _), rfl, rfl⟩
            · rw [if_neg h3] at h; exact ih hrest ins used lastEnd l hins h

lemma planLoop_source (cfg : Config) (brolls : List BRollCand)
    (segs0 : List Segment) :
    ∀ (segsl : List Segment),
      (∀ s ∈ segsl, s ∈ segs0 ∧ s.embedding.isSome = true) →
    ∀ (ins : List Insertion) (used : List String) (lastEnd : ℚ)
      (l : List Insertion),
      (∀ i ∈ ins, insertionSource segs0 brolls i) →
      planLoop cfg brolls segsl ins used lastEnd = .ok l →
      ∀ i ∈ l, insertionSource segs0 brolls i := by
  intro segsl
  induction segsl with
  | nil =>
    intro _ ins used lastEnd l hins h
    simp only [planLoop, Except.ok.injEq] at h
    rw [← h]; exact hins
  | cons seg rest ih =>
    intro hs ins used lastEnd l hins h
    have hrest := fun s hm => hs s (List.mem_cons_of_mem _ hm)
    rw [planLoop] at h
    by_cases h1 : cfg.maxInsertions ≤ ins.length
    · rw [if_pos h1] at h
      injection h with h
      rw [← h]; exact hins
    · rw [if_neg h1] at h
      by_cases h2 : seg.start_sec < lastEnd + cfg.minInsertionGap
      · rw [if_pos h2] at h; exact ih hrest ins used lastEnd l hins h
      · rw [if_neg h2] at h
        cases hm : findBestMatch (seg.embedding.getD [])
            (brollsToSearch cfg brolls used ins.length) with
        | error e => rw [hm] at h; dsimp only at h; cases h
        | ok r =>
          rw [hm] at h
          cases r with
          | none => dsimp only at h; exact ih hrest ins used lastEnd l hins h
          | some mt =>
            dsimp only at h
            by_cases h3 : Sim.le (Sim.ofRat cfg.minConfidence) mt.confidence = true
            · rw [if_pos h3] at h
              refine ih hrest _ _ _ l ?_ h
              intro i hi
              rcases List.mem_append.mp hi with hi | hi
              · exact hins i hi
              · rw [List.mem_singleton] at hi
                subst hi
                rcases findBestMatchAux_ok_some hm with hacc | ⟨b, hbmem, hid, _, hcos⟩
                · cases hacc
                · obtain ⟨hmem0, hsome⟩ := hs seg (List.mem_cons_self _ _)
                  obtain ⟨e, he⟩ := Option.isSome_iff_exists.mp hsome
                  rw [he, Option.getD_some] at hcos
                  exact ⟨b, brollsToSearch_subset cfg brolls used ins.length b hbmem,
                    hid, seg, hmem0, e, he, hcos⟩
            · rw [if_neg h3] at h; exact ih hrest ins used lastEnd l hins h

lemma planLoop_noQualify {D : ℕ} (cfg : Config) {brolls : List BRollCand}
    (segs0 : List Segment)
    (hb : ∀ b ∈ brolls, b.embedding.length = D)
    (hq : ∀ s ∈ segs0, ∀ b ∈ brolls, qualifies cfg s b = false) :
    ∀ (segsl : List Segment),
      (∀ s ∈ segsl, s ∈ segs0 ∧ ∃ e, s.embedding = some e ∧ e.length = D) →
      ∀ (ins : List Insertion) (used : List String) (lastEnd : ℚ),
        planLoop cfg brolls segsl ins used lastEnd = .ok ins := by
  intro segsl
  induction segsl with
  | nil => intro _ ins used lastEnd; rfl
  | cons seg rest ih =>
    intro hs ins used lastEnd
    have hrest := fun s hm => hs s (List.mem_cons_of_mem _ hm)
    obtain ⟨hmem0, e, he, hlen⟩ := hs seg (List.mem_cons_self _ _)
    rw [planLoop]
    by_cases h1 : cfg.maxInsertions ≤ ins.length
    · rw [if_pos h1]
    · rw [if_neg h1]
      by_cases h2 : seg.start_sec < lastEnd + cfg.minInsertionGap
      · rw [if_pos h2]; exact ih hrest ins used lastEnd
      · rw [if_neg h2]
        have hpool : ∀ b ∈ brollsToSearch cfg brolls used ins.length,
            b.embedding.length = (seg.embedding.getD []).length := by
          intro b hbm
          rw [he]
          show b.embedding.length = e.length
          rw [hb b (brollsToSearch_subset cfg brolls used ins.length b hbm), hlen]
        obtain ⟨r, hr⟩ :=
          findBestMatchAux_ok_of_lengths hpool none (Sim.ofRat (-1))
        have hr' : findBestMatch (seg.embedding.getD [])
            (brollsToSearch cfg brolls used ins.length) = .ok r := hr
        rw [hr']
        cases r with
        | none => dsimp only; exact ih hrest ins used lastEnd
        | some mt =>
          dsimp only
          have h3 : Sim.le (Sim.ofRat cfg.minConfidence) mt.confidence = false := by
            rcases findBestMatchAux_ok_some hr with hacc | ⟨b, hbmem, _, _, hcos⟩
            · cases hacc
            · have hqb := hq seg hmem0 b
                (brollsToSearch_subset cfg brolls used ins.length b hbmem)
              rw [he, Option.getD_some] at hcos
              simp only [qualifies, he] at hqb
              rw [hcos] at hqb
              exact hqb
          rw [if_neg (by rw [h3]; exact Bool.false_ne_true)]
          exact ih hrest ins used lastEnd

/-! Lemmas relating `planInsertions` to the loop. -/

lemma mem_suitable {segs : List Segment} {cfg : Config} {dur : ℚ} {s : Segment}
    (h : s ∈ (segs.filter (suitableSeg cfg dur)).insertionSort
      fun a b => a.start_sec ≤ b.start_sec) :
    s ∈ segs ∧ suitableSeg cfg dur s = true := by
  rw [List.mem_insertionSort] at h
  exact ⟨(List.mem_filter.mp h).1, (List.mem_filter.mp h).2⟩

lemma suitable_isSome {cfg : Config} {dur : ℚ} {s : Segment}
    (h : suitableSeg cfg dur s = true) : s.embedding.isSome = true := by
  simp only [suitableSeg, Bool.and_eq_true] at h
  exact h.2

lemma wellFormed_brolls {D : ℕ} {segs : List Segment} {brolls : List BRollCand}
    (h : wellFormed D segs brolls = true) :
    ∀ b ∈ brolls, b.embedding.length = D := by
  simp only [wellFormed, Bool.and_eq_true, List.all_eq_true] at h
  intro b hb
  simpa using h.1 b hb

lemma wellFormed_segs {D : ℕ} {segs : List Segment} {brolls : List BRollCand}
    (h : wellFormed D segs brolls = true) :
    ∀ s ∈ segs, ∀ e, s.embedding = some e → e.length = D := by
  simp only [wellFormed, Bool.and_eq_true, List.all_eq_true] at h
  intro s hs e he
  have h2 := h.2 s hs
  rw [he] at h2
  simpa using h2

/-! Justification that the `Sim` representation matches the real-number
values the source computes: the decision procedures `Sim.lt` and `Sim.le`
agree with the order of the represented reals `num / √den2`, and the
source's zero test on `√normA * √normB` agrees with the embedded test
`normA * normB = 0`. -/

lemma sumSq_nonneg (v : List ℚ) : 0 ≤ sumSq v := by
  refine List.sum_nonneg ?_
  intro x hx
  rcases List.mem_map.mp hx with ⟨y, _, rfl⟩
  exact mul_self_nonneg y

theorem sqrt_mul_sqrt_eq_zero_iff {x y : ℝ} (hx : 0 ≤ x) (hy : 0 ≤ y) :
    Real.sqrt x * Real.sqrt y = 0 ↔ x * y = 0 := by
  rw [← Real.sqrt_mul hx y]
  rw [Real.sqrt_eq_zero (mul_nonneg hx hy)]

lemma lt_of_sq_lt_sq {u v : ℝ} (h : u ^ 2 < v ^ 2) (hv : 0 ≤ v) : u < v := by
  nlinarith [sq_nonneg (u + v), sq_nonneg (u - v)]

lemma sq_lt_sq_of_nonneg {u v : ℝ} (h : u < v) (hu : 0 ≤ u) :
    u ^ 2 < v ^ 2 := by nlinarith

lemma le_of_sq_le_sq {u v : ℝ} (h : u ^ 2 ≤ v ^ 2) (hv : 0 ≤ v) : u ≤ v := by
  nlinarith [sq_nonneg (u + v), sq_nonneg (u - v)]

lemma sq_le_sq_of_nonneg {u v : ℝ} (h : u ≤ v) (hu : 0 ≤ u) :
    u ^ 2 ≤ v ^ 2 := by nlinarith

theorem Sim.lt_iff_toReal (a b : Sim) (ha : 0 < a.den2) (hb : 0 < b.den2) :
    Sim.lt a b = true ↔
      (a.num : ℝ) / Real.sqrt (a.den2 : ℝ) <
        (b.num : ℝ) / Real.sqrt (b.den2 : ℝ) := by
  have hxa : (0 : ℝ) < (a.den2 : ℝ) := by exact_mod_cast ha
  have hxb : (0 : ℝ) < (b.den2 : ℝ) := by exact_mod_cast hb
  have hsa : (0 : ℝ) < Real.sqrt (a.den2 : ℝ) := Real.sqrt_pos.mpr hxa
  have hsb : (0 : ℝ) < Real.sqrt (b.den2 : ℝ) := Real.sqrt_pos.mpr hxb
  have ha2 : Real.sqrt (a.den2 : ℝ) ^ 2 = (a.den2 : ℝ) := Real.sq_sqrt hxa.le
  have hb2 : Real.sqrt (b.den2 : ℝ) ^ 2 = (b.den2 : ℝ) := Real.sq_sqrt hxb.le
  rw [div_lt_div_iff hsa hsb]
  have hu2 : ((a.num : ℝ) * Real.sqrt (b.den2 : ℝ)) ^ 2 =
      (a.num : ℝ) ^ 2 * (b.den2 : ℝ) := by rw [mul_pow, hb2]
  have hv2 : ((b.num : ℝ) * Real.sqrt (a.den2 : ℝ)) ^ 2 =
      (b.num : ℝ) ^ 2 * (a.den2 : ℝ) := by rw [mul_pow, ha2]
  rw [Sim.lt]
  by_cases hA : (0 : ℚ) ≤ a.num
  · rw [if_pos hA]
    have hA' : (0 : ℝ) ≤ (a.num : ℝ) := by exact_mod_cast hA
    have hu0 : (0 : ℝ) ≤ (a.num : ℝ) * Real.sqrt (b.den2 : ℝ) :=
      mul_nonneg hA' hsb.le
    simp only [Bool.and_eq_true, decide_eq_true_eq]
    constructor
    · rintro ⟨hB, hsq⟩
      have hB' : (0 : ℝ) ≤ (b.num : ℝ) := by exact_mod_cast hB
      have hsq' : ((a.num : ℝ)) ^ 2 * (b.den2 : ℝ) <
          ((b.num : ℝ)) ^ 2 * (a.den2 : ℝ) := by exact_mod_cast hsq
      refine lt_of_sq_lt_sq ?_ (mul_nonneg hB' hsa.le)
      rw [hu2, hv2]; exact hsq'
    · intro hlt
      have hv0 : (0 : ℝ) < (b.num : ℝ) * Real.sqrt (a.den2 : ℝ) :=
        lt_of_le_of_lt hu0 hlt
      have hB' : (0 : ℝ) < (b.num : ℝ) := by
        rcases mul_pos_iff.mp hv0 with ⟨h1, _⟩ | ⟨_, h2⟩
        · exact h1
        · exact absurd hsa (not_lt.mpr h2.le)
      refine ⟨by exact_mod_cast hB'.le, ?_⟩
      have hsq' := sq_lt_sq_of_nonneg hlt hu0
      rw [hu2, hv2] at hsq'
      exact_mod_cast hsq'
  · rw [if_neg hA]
    push_neg at hA
    have hA' : (a.num : ℝ) < 0 := by exact_mod_cast hA
    have hu0 : (a.num : ℝ) * Real.sqrt (b.den2 : ℝ) < 0 :=
      mul_neg_of_neg_of_pos hA' hsb
    simp only [Bool.or_eq_true, decide_eq_true_eq]
    constructor
    · rintro (hB | hsq)
      · have hB' : (0 : ℝ) ≤ (b.num : ℝ) := by exact_mod_cast hB
        exact lt_of_lt_of_le hu0 (mul_nonneg hB' hsa.le)
      · by_cases hB : (0 : ℚ) ≤ b.num
        · have hB' : (0 : ℝ) ≤ (b.num : ℝ) := by exact_mod_cast hB
          exact lt_of_lt_of_le hu0 (mul_nonneg hB' hsa.le)
        · push_neg at hB
          have hB' : (b.num : ℝ) < 0 := by exact_mod_cast hB
          have hsq' : ((b.num : ℝ)) ^ 2 * (a.den2 : ℝ) <
              ((a.num : ℝ)) ^ 2 * (b.den2 : ℝ) := by exact_mod_cast hsq
          have hflip : -((b.num : ℝ) * Real.sqrt (a.den2 : ℝ)) <
              -((a.num : ℝ) * Real.sqrt (b.den2 : ℝ)) := by
            refine lt_of_sq_lt_sq ?_ (by nlinarith)
            rw [neg_sq, neg_sq, hu2, hv2]
            exact hsq'
          linarith
    · intro hlt
      by_cases hB : (0 : ℚ) ≤ b.num
      · exact Or.inl hB
      · right
        push_neg at hB
        have hB' : (b.num : ℝ) < 0 := by exact_mod_cast hB
        have hv0 : (b.num : ℝ) * Real.sqrt (a.den2 : ℝ) < 0 :=
          mul_neg_of_neg_of_pos hB' hsa
        have hsq' := sq_lt_sq_of_nonneg (u := -((b.num : ℝ) * Real.sqrt (a.den2 : ℝ)))
          (v := -((a.num : ℝ) * Real.sqrt (b.den2 : ℝ))) (by linarith) (by linarith)
        rw [neg_sq, neg_sq, hu2, hv2] at hsq'
        exact_mod_cast hsq'

theorem Sim.le_iff_toReal (a b : Sim) (ha : 0 < a.den2) (hb : 0 < b.den2) :
    Sim.le a b = true ↔
      (a.num : ℝ) / Real.sqrt (a.den2 : ℝ) ≤
        (b.num : ℝ) / Real.sqrt (b.den2 : ℝ) := by
  have hxa : (0 : ℝ) < (a.den2 : ℝ) := by exact_mod_cast ha
  have hxb : (0 : ℝ) < (b.den2 : ℝ) := by exact_mod_cast hb
  have hsa : (0 : ℝ) < Real.sqrt (a.den2 : ℝ) := Real.sqrt_pos.mpr hxa
  have hsb : (0 : ℝ) < Real.sqrt (b.den2 : ℝ) := Real.sqrt_pos.mpr hxb
  have ha2 : Real.sqrt (a.den2 : ℝ) ^ 2 = (a.den2 : ℝ) := Real.sq_sqrt hxa.le
  have hb2 : Real.sqrt (b.den2 : ℝ) ^ 2 = (b.den2 : ℝ) := Real.sq_sqrt hxb.le
  rw [div_le_div_iff hsa hsb]
  have hu2 : ((a.num : ℝ) * Real.sqrt (b.den2 : ℝ)) ^ 2 =
      (a.num : ℝ) ^ 2 * (b.den2 : ℝ) := by rw [mul_pow, hb2]
  have hv2 : ((b.num : ℝ) * Real.sqrt (a.den2 : ℝ)) ^ 2 =
      (b.num : ℝ) ^ 2 * (a.den2 : ℝ) := by rw [mul_pow, ha2]
  rw [Sim.le]
  by_cases hA : (0 : ℚ) ≤ a.num
  · rw [if_pos hA]
    have hA' : (0 : ℝ) ≤ (a.num : ℝ) := by exact_mod_cast hA
    have hu0 : (0 : ℝ) ≤ (a.num : ℝ) * Real.sqrt (b.den2 : ℝ) :=
      mul_nonneg hA' hsb.le
    simp only [Bool.and_eq_true, decide_eq_true_eq]
    constructor
    · rintro ⟨hB, hsq⟩
      have hB' : (0 : ℝ) ≤ (b.num : ℝ) := by exact_mod_cast hB
      have hsq' : ((a.num : ℝ)) ^ 2 * (b.den2 : ℝ) ≤
          ((b.num : ℝ)) ^ 2 * (a.den2 : ℝ) := by exact_mod_cast hsq
      refine le_of_sq_le_sq ?_ (mul_nonneg hB' hsa.le)
      rw [hu2, hv2]; exact hsq'
    · intro hle
      have hB' : (0 : ℝ) ≤ (b.num : ℝ) := by
        by_contra hneg
        push_neg at hneg
        have : (b.num : ℝ) * Real.sqrt (a.den2 : ℝ) < 0 :=
          mul_neg_of_neg_of_pos hneg hsa
        linarith
      refine ⟨by exact_mod_cast hB', ?_⟩
      have hsq' := sq_le_sq_of_nonneg hle hu0
      rw [hu2, hv2] at hsq'
      exact_mod_cast hsq'
  · rw [if_neg hA]
    push_neg at hA
    have hA' : (a.num : ℝ) < 0 := by exact_mod_cast hA
    have hu0 : (a.num : ℝ) * Real.sqrt (b.den2 : ℝ) < 0 :=
      mul_neg_of_neg_of_pos hA' hsb
    simp only [Bool.or_eq_true, decide_eq_true_eq]
    constructor
    · rintro (hB | hsq)
      · have hB' : (0 : ℝ) ≤ (b.num : ℝ) := by exact_mod_cast hB
        exact le_of_lt (lt_of_lt_of_le hu0 (mul_nonneg hB' hsa.le))
      · by_cases hB : (0 : ℚ) ≤ b.num
        · have hB' : (0 : ℝ) ≤ (b.num : ℝ) := by exact_mod_cast hB
          exact le_of_lt (lt_of_lt_of_le hu0 (mul_nonneg hB' hsa.le))
        · push_neg at hB
          have hB' : (b.num : ℝ) < 0 := by exact_mod_cast hB
          have hsq' : ((b.num : ℝ)) ^ 2 * (a.den2 : ℝ) ≤
              ((a.num : ℝ)) ^ 2 * (b.den2 : ℝ) := by exact_mod_cast hsq
          have hflip : -((b.num : ℝ) * Real.sqrt (a.den2 : ℝ)) ≤
              -((a.num : ℝ) * Real.sqrt (b.den2 : ℝ)) := by
            refine le_of_sq_le_sq ?_ (by nlinarith)
            rw [neg_sq, neg_sq, hu2, hv2]
            exact hsq'
          linarith
    · intro hle
      by_cases hB : (0 : ℚ) ≤ b.num
      · exact Or.inl hB
      · right
        push_neg at hB
        have hB' : (b.num : ℝ) < 0 := by exact_mod_cast hB
        have hv0 : (b.num : ℝ) * Real.sqrt (a.den2 : ℝ) < 0 :=
          mul_neg_of_neg_of_pos hB' hsa
        have hsq' := sq_le_sq_of_nonneg (u := -((b.num : ℝ) * Real.sqrt (a.den2 : ℝ)))
          (v := -((a.num : ℝ) * Real.sqrt (b.den2 : ℝ))) (by linarith) (by linarith)
        rw [neg_sq, neg_sq, hu2, hv2] at hsq'
        exact_mod_cast hsq'

/-! The claims. -/

/-- C1, counterexample: `findBestMatch` returns `null` on a NON-empty
candidate list when the only candidate's cosine similarity is exactly `−1`
(it never strictly exceeds the initial `bestScore = -1`), refuting
"returns null only if candidates is empty". -/
theorem claim_C1_counterexample :
    findBestMatch [1] [⟨"b1", "dark", [-1]⟩] = .ok none ∧
    ([⟨"b1", "dark", [-1]⟩] : List BRollCand) ≠ [] := by
  constructor
  · with_unfolding_all decide
  · intro h; cases h

/-- C1 (amended): `findBestMatch` returns `null` only if the candidate list
is empty or no candidate's similarity strictly exceeds the initial best
score `−1`; conversely, whenever all candidate embeddings match the
segment's dimension and some candidate's similarity strictly exceeds `−1`,
a match object is returned. -/
theorem claim_C1_amended :
    (∀ (emb : List ℚ) (cands : List BRollCand),
      findBestMatch emb cands = .ok none →
      cands.any (simBeats emb (Sim.ofRat (-1))) = false) ∧
    (∀ (emb : List ℚ) (cands : List BRollCand),
      (∀ b ∈ cands, b.embedding.length = emb.length) →
      cands.any (simBeats emb (Sim.ofRat (-1))) = true →
      ∃ m, findBestMatch emb cands = .ok (some m)) := by
  constructor
  · intro emb cands h
    exact (findBestMatchAux_none h).2
  · intro emb cands hlen hany
    exact findBestMatchAux_some_of_beats hlen none (Sim.ofRat (-1)) hany

/-- C1, witness: the amended theorem applied to a concrete one-candidate
input whose similarity is `1 > −1`. -/
theorem claim_C1_witness :
    ∃ m, findBestMatch [1] [⟨"b1", "sunset", [1]⟩] = .ok (some m) :=
  claim_C1_amended.2 [1] [⟨"b1", "sunset", [1]⟩]
    (by with_unfolding_all decide) (by with_unfolding_all decide)

/-- C2, counterexample: Scenario A (segments starting at `0` and `20`,
one candidate with similarity `1` to both, 60-second A-roll, default
config) yields one insertion, not two: the segment starting at `0` fails
the `start_sec ≥ avoidFirstSeconds = 2` eligibility condition. -/
theorem claim_C2_counterexample :
    Except.map List.length (planInsertions
      [⟨0, 10, "intro", some [1]⟩, ⟨20, 25, "middle", some [1]⟩]
      [⟨"b1", "clip", [1]⟩] 60 {}) ≠ Except.ok 2 := by
  with_unfolding_all decide

/-- C2 (amended): on the Scenario A input, `planInsertions` returns exactly
one insertion, produced by the segment at `start_sec = 20` (insertion start
`20.5`, duration `clamp(25 − 20.5 − 0.5, 2, 5) = 4`), referencing the sole
candidate with confidence `1`. -/
theorem claim_C2_amended :
    planInsertions
      [⟨0, 10, "intro", some [1]⟩, ⟨20, 25, "middle", some [1]⟩]
      [⟨"b1", "clip", [1]⟩] 60 {} =
    .ok [⟨41 / 2, 4, "b1", ⟨1, 1⟩, "Semantic match: clip..."⟩] := by
  with_unfolding_all decide

/-- C3, counterexample: with `minInsertionGap = −100` (every option is
independently overridable) two identical segments produce two insertions
with the same `start_sec`, so the output is not strictly increasing. -/
theorem claim_C3_counterexample :
    planInsertions [⟨5, 10, "a", some [1]⟩, ⟨5, 10, "b", some [1]⟩]
      [⟨"b1", "clip", [1]⟩] 60 { minInsertionGap := -100 } =
      .ok [⟨11 / 2, 4, "b1", ⟨1, 1⟩, "Semantic match: clip..."⟩,
        ⟨11 / 2, 4, "b1", ⟨1, 1⟩, "Semantic match: clip..."⟩] ∧
    ¬((11 : ℚ) / 2 < 11 / 2) := by
  constructor
  · with_unfolding_all decide
  · exact lt_irrefl _

/-- C3 (amended): whenever
`0 < 0.5 + minInsertionGap + min(minInsertionDuration, maxInsertionDuration)`
— which the defaults satisfy — every plan produced by `planInsertions` has
strictly increasing `start_sec` along adjacent (indeed all) pairs. -/
theorem claim_C3_amended (segs : List Segment) (brolls : List BRollCand)
    (dur : ℚ) (cfg : Config) (l : List Insertion)
    (hgap : 0 < 1 / 2 + cfg.minInsertionGap +
      min cfg.minInsertionDuration cfg.maxInsertionDuration)
    (h : planInsertions segs brolls dur cfg = .ok l) :
    l.Pairwise fun a b => a.start_sec < b.start_sec := by
  simp only [planInsertions] at h
  exact planLoop_sorted cfg brolls hgap _ [] [] cfg.avoidFirstSeconds l
    List.Pairwise.nil (by intro i hi; cases hi) h

/-- C3, witness: the amended theorem applied to a concrete run under the
default configuration. -/
theorem claim_C3_witness :
    ([⟨21 / 2, 5, "b1", ⟨1, 1⟩, "Semantic match: clip..."⟩] :
      List Insertion).Pairwise (fun a b => a.start_sec < b.start_sec) :=
  claim_C3_amended [⟨10, 20, "talk", some [1]⟩] [⟨"b1", "clip", [1]⟩] 60 {} _
    (by with_unfolding_all decide) (by with_unfolding_all decide)

/-- C4, counterexample: with `minInsertionDuration = 10 >
maxInsertionDuration = 5` the emitted duration is `5`, violating
`minInsertionDuration ≤ duration_sec` (the lower bound is applied first,
then clipped by the upper bound). -/
theorem claim_C4_counterexample :
    planInsertions [⟨10, 20, "t", some [1]⟩] [⟨"b1", "clip", [1]⟩] 60
      { minInsertionDuration := 10 } =
      .ok [⟨21 / 2, 5, "b1", ⟨1, 1⟩, "Semantic match: clip..."⟩] ∧
    ¬((10 : ℚ) ≤ 5) := by
  constructor
  · with_unfolding_all decide
  · with_unfolding_all decide

/-- C4 (amended): every emitted insertion's duration equals the
lower-bound-first clamp `min(max(minInsertionDuration, end − start − 1),
maxInsertionDuration)` of its producing segment; consequently it always
lies between `min(minInsertionDuration, maxInsertionDuration)` and
`maxInsertionDuration`, and between the two configured bounds whenever
`minInsertionDuration ≤ maxInsertionDuration` (in particular under the
defaults). -/
theorem claim_C4_amended (segs : List Segment) (brolls : List BRollCand)
    (dur : ℚ) (cfg : Config) (l : List Insertion)
    (h : planInsertions segs brolls dur cfg = .ok l) :
    ∀ i ∈ l, durationSpec cfg segs i := by
  simp only [planInsertions] at h
  refine planLoop_durationSpec cfg brolls segs _ ?_ [] [] cfg.avoidFirstSeconds
    l (by intro i hi; cases hi) h
  intro s hs
  exact (mem_suitable hs).1

/-- C4, witness: the amended theorem applied to a concrete run. -/
theorem claim_C4_witness :
    durationSpec {} [⟨12, 20, "talk", some [1]⟩]
      ⟨25 / 2, 5, "b1", ⟨1, 1⟩, "Semantic match: clip..."⟩ :=
  claim_C4_amended [⟨12, 20, "talk", some [1]⟩] [⟨"b1", "clip", [1]⟩] 60 {} _
    (by with_unfolding_all decide) _ (List.mem_singleton.mpr rfl)

/-- C5: at any step of the planner (any `usedBrollIds` state, any insertion
count), if some candidate id is still unused, then any match found over the
step's search pool has an unused id — reuse can only happen when every
candidate id has been used. -/
theorem claim_C5 (cfg : Config) (brolls : List BRollCand) (used : List String)
    (n : ℕ) (emb : List ℚ) (mt : BMatch)
    (hunused : ∃ b ∈ brolls, used.contains b.id = false)
    (hm : findBestMatch emb (brollsToSearch cfg brolls used n) = .ok (some mt)) :
    ∃ b ∈ brolls, mt.id = b.id ∧ used.contains b.id = false := by
  rcases findBestMatchAux_ok_some hm with hacc | ⟨b, hbmem, hid, _, _⟩
  · cases hacc
  · exact ⟨b, brollsToSearch_subset cfg brolls used n b hbmem, hid,
      brollsToSearch_unused cfg brolls used n hunused b hbmem⟩

/-- C5, witness: the theorem applied at a concrete state with one unused
candidate. -/
theorem claim_C5_witness :
    ∃ b ∈ [(⟨"b1", "clip", [1]⟩ : BRollCand)],
      ("b1" : String) = b.id ∧ ([] : List String).contains b.id = false :=
  claim_C5 {} [⟨"b1", "clip", [1]⟩] [] 0 [1]
    ⟨"b1", ⟨1, 1⟩, "Semantic match: clip..."⟩
    (by with_unfolding_all decide) (by with_unfolding_all decide)

/-- C6: mismatched vector lengths make `cosineSimilarity` fail with the
`DimensionMismatch` error; the error propagates through `findBestMatch`
(whenever some scored candidate's dimension differs from the segment's)
and through the planner loop the moment a scored segment raises it, with
no insertion output; a concrete `planInsertions` run on mismatched
embeddings returns the error itself. -/
theorem claim_C6 :
    (∀ a b : List ℚ, a.length ≠ b.length →
      cosineSimilarity a b = .error .dimensionMismatch) ∧
    (∀ (emb : List ℚ) (pool : List BRollCand),
      (∃ b ∈ pool, emb.length ≠ b.embedding.length) →
      findBestMatch emb pool = .error .dimensionMismatch) ∧
    (∀ (cfg : Config) (brolls : List BRollCand) (seg : Segment)
      (rest : List Segment) (ins : List Insertion) (used : List String)
      (lastEnd : ℚ),
      ¬cfg.maxInsertions ≤ ins.length →
      ¬seg.start_sec < lastEnd + cfg.minInsertionGap →
      findBestMatch (seg.embedding.getD [])
        (brollsToSearch cfg brolls used ins.length) =
        .error .dimensionMismatch →
      planLoop cfg brolls (seg :: rest) ins used lastEnd =
        .error .dimensionMismatch) ∧
    planInsertions [⟨10, 20, "t", some [1]⟩] [⟨"bad", "clip", [1, 2]⟩] 60 {} =
      .error .dimensionMismatch := by
  refine ⟨?_, ?_, ?_, ?_⟩
  · intro a b h
    exact cosineSimilarity_error_of_ne h
  · intro emb pool hx
    exact findBestMatchAux_error_of_mismatch hx none (Sim.ofRat (-1))
  · intro cfg brolls seg rest ins used lastEnd h1 h2 hm
    rw [planLoop, if_neg h1, if_neg h2, hm]
  · with_unfolding_all decide

/-- C6, witness: the three propagation statements applied at concrete
mismatched inputs. -/
theorem claim_C6_witness :
    cosineSimilarity [1] [1, 2] = .error .dimensionMismatch ∧
    findBestMatch [1] [⟨"bad", "clip", [1, 2]⟩] = .error .dimensionMismatch ∧
    planLoop {} [⟨"bad", "clip", [1, 2]⟩] [⟨10, 20, "t", some [1]⟩] [] [] 2 =
      .error .dimensionMismatch :=
  ⟨claim_C6.1 [1] [1, 2] (by decide),
   claim_C6.2.1 [1] [⟨"bad", "clip", [1, 2]⟩]
     ⟨⟨"bad", "clip", [1, 2]⟩, List.mem_singleton.mpr rfl, by decide⟩,
   claim_C6.2.2.1 {} [⟨"bad", "clip", [1, 2]⟩] ⟨10, 20, "t", some [1]⟩ [] [] [] 2
     (by with_unfolding_all decide) (by with_unfolding_all decide)
     (by with_unfolding_all decide)⟩

/-- C7: for equal-length vectors where at least one has zero magnitude
(zero sum of squares), `cosineSimilarity` returns exactly `0` — no error
and no undefined value: the `denominator === 0` guard fires and the
division branch is not reached. -/
theorem claim_C7 (a b : List ℚ) (hlen : a.length = b.length)
    (hz : sumSq a = 0 ∨ sumSq b = 0) :
    cosineSimilarity a b = .ok (Sim.ofRat 0) := by
  rw [cosineSimilarity, if_pos hlen, if_pos (mul_eq_zero.mpr hz)]

/-- C7, witness: the theorem applied to the zero vector against a nonzero
vector. -/
theorem claim_C7_witness : cosineSimilarity [0] [5] = .ok (Sim.ofRat 0) :=
  claim_C7 [0] [5] rfl (Or.inl (by with_unfolding_all decide))

/-- C8: on well-formed input (all embeddings of one dimension `D`) the
planner never raises: it returns some insertion list; and it returns the
empty list when there are no eligible segments, no candidates, or no
qualifying (segment, candidate) pair. -/
theorem claim_C8 (D : ℕ) (segs : List Segment) (brolls : List BRollCand)
    (dur : ℚ) (cfg : Config) (hwf : wellFormed D segs brolls = true) :
    (∃ l, planInsertions segs brolls dur cfg = .ok l) ∧
    (segs.filter (suitableSeg cfg dur) = [] →
      planInsertions segs brolls dur cfg = .ok []) ∧
    (brolls = [] → planInsertions segs brolls dur cfg = .ok []) ∧
    ((∀ s ∈ segs, ∀ b ∈ brolls, qualifies cfg s b = false) →
      planInsertions segs brolls dur cfg = .ok []) := by
  have hb := wellFormed_brolls hwf
  have hsg := wellFormed_segs hwf
  have hmem : ∀ s ∈ (segs.filter (suitableSeg cfg dur)).insertionSort
      (fun a b => a.start_sec ≤ b.start_sec),
      s ∈ segs ∧ ∃ e, s.embedding = some e ∧ e.length = D := by
    intro s hs
    obtain ⟨hm, hsuit⟩ := mem_suitable hs
    obtain ⟨e, he⟩ := Option.isSome_iff_exists.mp (suitable_isSome hsuit)
    exact ⟨hm, e, he, hsg s hm e he⟩
  refine ⟨?_, ?_, ?_, ?_⟩
  · simp only [planInsertions]
    exact planLoop_ok_of_wf cfg hb _ (fun s hs => (hmem s hs).2) [] []
      cfg.avoidFirstSeconds
  · intro hfil
    simp only [planInsertions, hfil]
    rfl
  · intro hbr
    subst hbr
    simp only [planInsertions]
    exact planLoop_nil_brolls cfg _ [] [] cfg.avoidFirstSeconds
  · intro hq
    simp only [planInsertions]
    exact planLoop_noQualify cfg segs hb hq _ hmem [] [] cfg.avoidFirstSeconds

/-- C8, witness: the theorem applied to a concrete well-formed input. -/
theorem claim_C8_witness :
    (∃ l, planInsertions [⟨12, 20, "t", some [1]⟩] [⟨"b1", "clip", [1]⟩] 60 {} =
      .ok l) ∧
    (([⟨12, 20, "t", some [1]⟩] : List Segment).filter (suitableSeg {} 60) = [] →
      planInsertions [⟨12, 20, "t", some [1]⟩] [⟨"b1", "clip", [1]⟩] 60 {} =
        .ok []) ∧
    (([⟨"b1", "clip", [1]⟩] : List BRollCand) = [] →
      planInsertions [⟨12, 20, "t", some [1]⟩] [⟨"b1", "clip", [1]⟩] 60 {} =
        .ok []) ∧
    ((∀ s ∈ [(⟨12, 20, "t", some [1]⟩ : Segment)],
        ∀ b ∈ [(⟨"b1", "clip", [1]⟩ : BRollCand)], qualifies {} s b = false) →
      planInsertions [⟨12, 20, "t", some [1]⟩] [⟨"b1", "clip", [1]⟩] 60 {} =
        .ok []) :=
  claim_C8 1 [⟨12, 20, "t", some [1]⟩] [⟨"b1", "clip", [1]⟩] 60 {}
    (by with_unfolding_all decide)

/-- C10: every insertion of every produced plan carries the id of some
input candidate as its `broll_id`, and its `confidence` is the successfully
computed cosine similarity of some input segment's embedding with that
candidate's embedding. -/
theorem claim_C10 (segs : List Segment) (brolls : List BRollCand) (dur : ℚ)
    (cfg : Config) (l : List Insertion)
    (h : planInsertions segs brolls dur cfg = .ok l) :
    ∀ i ∈ l, insertionSource segs brolls i := by
  simp only [planInsertions] at h
  refine planLoop_source cfg brolls segs _ ?_ [] [] cfg.avoidFirstSeconds l
    (by intro i hi; cases hi) h
  intro s hs
  obtain ⟨hm, hsuit⟩ := mem_suitable hs
  exact ⟨hm, suitable_isSome hsuit⟩

/-- C10, witness: the theorem applied to a concrete run. -/
theorem claim_C10_witness :
    insertionSource [⟨15, 22, "talk", some [1]⟩] [⟨"b1", "clip", [1]⟩]
      ⟨31 / 2, 5, "b1", ⟨1, 1⟩, "Semantic match: clip..."⟩ :=
  claim_C10 [⟨15, 22, "talk", some [1]⟩] [⟨"b1", "clip", [1]⟩] 60 {} _
    (by with_unfolding_all decide) _ (List.mem_singleton.mpr rfl)

end BRoll
